import Mathlib

/-!
A shallow embedding of the `ArgsParser` component of the cross-org/utils
library (`src/utils/args.ts`), together with theorems settling the spec's
claims about it.

Modelling conventions:
* JavaScript strings are modelled as lists of characters (`JSString`).
* JavaScript objects used as string-keyed records are modelled as
  insertion-ordered association lists; property access returns `Option`.
* JavaScript `undefined` is `Option.none`; absent optional fields of the
  configuration object are `Option.none`.
* The `string | boolean` value type stored by the parser is `ArgValue`.
-/

/-- JavaScript strings, modelled as lists of characters. -/
abbrev JSString := List Char

/-- Turns a Lean string literal into its character-list model. -/
def jstr (x : String) : JSString := x.data

/-- A stored argument value: `string | boolean` in the TypeScript source. -/
inductive ArgValue where
  | vstr (text : JSString)
  | vbool (b : Bool)
deriving DecidableEq

/-- First-match lookup in an association list, modelling JS property access
`obj[key]` on a record (with `undefined` as `none`). -/
def lookupA {α : Type} : List (JSString × α) → JSString → Option α
  | [], _ => none
  | (k, v) :: rest, key => if k = key then some v else lookupA rest key

/-- JS truthiness of a stored value (`value ? … : …`): the empty string and
`false` are falsy, everything else stored by the parser is truthy. -/
def valTruthy : ArgValue → Bool
  | .vstr t => !t.isEmpty
  | .vbool b => b

/-- JS `value.toString()` for a stored value. -/
def valToString : ArgValue → JSString
  | .vstr t => t
  | .vbool b => if b then jstr "true" else jstr "false"

/-- JS `s.startsWith(p)` on the character-list model: `startsWithL s p` is
`true` when `p` is an initial segment of `s`. -/
def startsWithL : JSString → JSString → Bool
  | _, [] => true
  | [], _ :: _ => false
  | c :: s, d :: p => if c = d then startsWithL s p else false

/-- JS `remainder.split("=")`: split on every `=` character. -/
def splitEq : JSString → List JSString
  | [] => [[]]
  | c :: rest =>
    if c = '=' then [] :: splitEq rest
    else
      match splitEq rest with
      | [] => [[c]]
      | h :: t => (c :: h) :: t

/-- JS `toLowerCase` on a character, restricted to the ASCII range (which is
all the comparisons in `getBoolean` can distinguish). -/
def lowerChar (c : Char) : Char :=
  if 'A' ≤ c ∧ c ≤ 'Z' then Char.ofNat (c.toNat + 32) else c

/-- JS `toLowerCase` on a string, ASCII range. -/
def lowerStr (t : JSString) : JSString := t.map lowerChar

/-- Membership test on a list of strings, modelling JS `Array.includes`. -/
def containsS : List JSString → JSString → Bool
  | [], _ => false
  | x :: xs, y => if x = y then true else containsS xs y

/-- The `ArgsParserOptions` configuration object: both fields optional. -/
structure ArgsParserOptions where
  aliases : Option (List (JSString × JSString))
  boolean : Option (List JSString)
deriving DecidableEq

/-- `aliases[name] || name` (JS truthiness: an empty-string alias target
falls back to the original name).  Used at src/utils/args.ts:111, 128 and by
every query method (line 196 etc.). -/
def aliasOr (al : List (JSString × JSString)) (name : JSString) : JSString :=
  match lookupA al name with
  | some v => if v = [] then name else v
  | none => name

/-- Alias resolution of a flag key (src/utils/args.ts:128):
`options.aliases?.[key] ? options.aliases?.[key] : key`. -/
def resolveKey (aliases : Option (List (JSString × JSString))) (key : JSString) : JSString :=
  match aliases with
  | none => key
  | some al => aliasOr al key

/-- Lines 108-114 of src/utils/args.ts: when both `options.boolean` and
`options.aliases` are supplied, `options.boolean` is overwritten in place with
its alias-normalized form.  The returned record is the state of the caller's
`options` object after `parseArgs` returns (and the configuration the scan
itself uses). -/
def normalizeOptions (options : ArgsParserOptions) : ArgsParserOptions :=
  match options.boolean, options.aliases with
  | some bl, some al => ⟨options.aliases, some (bl.map (aliasOr al))⟩
  | _, _ => options

/-- `options.boolean?.includes(key)` (src/utils/args.ts:131). -/
def isBooleanKey (options : ArgsParserOptions) (key : JSString) : Bool :=
  match options.boolean with
  | some bl => containsS bl key
  | none => false

/-- Lines 147-155 of src/utils/args.ts: append `value` under `key` in the
parsed-arguments record, creating the entry when the key is new. -/
def addValue : List (JSString × List ArgValue) → JSString → ArgValue →
    List (JSString × List ArgValue)
  | [], key, v => [(key, [v])]
  | (k, vs) :: rest, key, v =>
    if k = key then (k, vs ++ [v]) :: rest else (k, vs) :: addValue rest key v

/-- The mutable locals of the scan in `parseArgs` (lines 103-106). -/
structure ParseState where
  parsedArgs : List (JSString × List ArgValue)
  looseArgs : List JSString
  restCommand : JSString
  collectingRest : Bool
deriving DecidableEq

/-- The initial scan state. -/
def stInit : ParseState := ⟨[], [], [], false⟩

/-- State update for a token scanned in raw-capture mode (line 120 of
src/utils/args.ts): append to `restCommand`, space-separated once non-empty. -/
def collectStep (st : ParseState) (arg : JSString) : ParseState :=
  ⟨st.parsedArgs, st.looseArgs,
    st.restCommand ++ (if st.restCommand.isEmpty then [] else [' ']) ++ arg,
    st.collectingRest⟩

/-- State update for the `--` delimiter token (lines 121-122). -/
def delimStep (st : ParseState) : ParseState :=
  ⟨st.parsedArgs, st.looseArgs, st.restCommand, true⟩

/-- The `=`-split of the hyphen-stripped remainder of a flag token
(src/utils/args.ts line 124). -/
def flagParts (arg : JSString) : List JSString :=
  splitEq (arg.drop (if startsWithL arg ['-', '-'] then 2 else 1))

/-- The alias-resolved key of a flag token (lines 125-128). -/
def flagKey (options : ArgsParserOptions) (arg : JSString) : JSString :=
  resolveKey options.aliases ((flagParts arg).headD [])

/-- State update recording one value under a key (lines 147-155). -/
def addStep (st : ParseState) (key : JSString) (v : ArgValue) : ParseState :=
  ⟨addValue st.parsedArgs key v, st.looseArgs, st.restCommand, st.collectingRest⟩

/-- State update for a loose token (lines 156-158). -/
def looseStep (st : ParseState) (arg : JSString) : ParseState :=
  ⟨st.parsedArgs, st.looseArgs ++ [arg], st.restCommand, st.collectingRest⟩

/-- Lines 116-159 of src/utils/args.ts: the single left-to-right scan.  The
TS loop's `i++` inside the value-consumption branch (line 144) is modelled by
recursing past two tokens. -/
def parseLoop (options : ArgsParserOptions) : List JSString → ParseState → ParseState
  | [], st => st
  | arg :: rest, st =>
    if st.collectingRest then
      parseLoop options rest (collectStep st arg)
    else if arg = ['-', '-'] then
      parseLoop options rest (delimStep st)
    else if startsWithL arg ['-', '-'] || startsWithL arg ['-'] then
      if isBooleanKey options (flagKey options arg) then
        parseLoop options rest (addStep st (flagKey options arg) (.vbool true))
      else if 1 < (flagParts arg).length then
        parseLoop options rest
          (addStep st (flagKey options arg) (.vstr ((flagParts arg).getD 1 [])))
      else
        match rest with
        | next :: rest2 =>
          if startsWithL next ['-'] then
            parseLoop options (next :: rest2) (addStep st (flagKey options arg) (.vstr []))
          else
            parseLoop options rest2 (addStep st (flagKey options arg) (.vstr next))
        | [] => addStep st (flagKey options arg) (.vstr [])
    else
      parseLoop options rest (looseStep st arg)

/-- The record returned by `parseArgs` (lines 98-102, 161). -/
structure ParseResult where
  args : List (JSString × List ArgValue)
  loose : List JSString
  rest : JSString
deriving DecidableEq

/-- Projects the final scan state onto the returned record (line 161). -/
def stateToResult (st : ParseState) : ParseResult :=
  ⟨st.parsedArgs, st.looseArgs, st.restCommand⟩

/-- `ArgsParser.parseArgs` (src/utils/args.ts lines 95-162). -/
def parseArgs (cmdArgs : List JSString) (options : ArgsParserOptions) : ParseResult :=
  stateToResult (parseLoop (normalizeOptions options) cmdArgs stInit)

/-- The `ArgsParser` instance state after the constructor ran. -/
structure ArgsParser where
  parsedArgs : List (JSString × List ArgValue)
  looseArgs : List JSString
  restCommand : JSString
  aliases : List (JSString × JSString)
deriving DecidableEq

/-- The constructor (src/utils/args.ts lines 179-187): stores the supplied
aliases table (`{}` when absent) and the components of one `parseArgs` run. -/
def ArgsParser.make (cmdArgs : List JSString) (options : ArgsParserOptions) : ArgsParser :=
  ⟨(parseArgs cmdArgs options).args, (parseArgs cmdArgs options).loose,
    (parseArgs cmdArgs options).rest, options.aliases.getD []⟩

/-- `getArray` (src/utils/args.ts lines 195-205). -/
def ArgsParser.getArray (p : ArgsParser) (argName : JSString) : List JSString :=
  ((lookupA p.parsedArgs (aliasOr p.aliases argName)).getD []).map fun v =>
    match v with
    | .vbool _ => []
    | .vstr t => if t.isEmpty then [] else t

/-- `getBoolean` (src/utils/args.ts lines 213-230).  Value lists stored by the
parser are never empty; on an empty list (where the TS code would throw) the
first value is taken to be `""`. -/
def ArgsParser.getBoolean (p : ArgsParser) (argName : JSString) : Bool :=
  match lookupA p.parsedArgs (aliasOr p.aliases argName) with
  | none => false
  | some values =>
    let clean := lowerStr (valToString (values.headD (.vstr [])))
    if clean = jstr "no" ∨ clean = jstr "n" ∨ clean = jstr "false" ∨ clean = jstr "0"
    then false else true

/-- `get` (src/utils/args.ts lines 238-243):
`firstValue ? firstValue.toString() : undefined`. -/
def ArgsParser.get (p : ArgsParser) (argName : JSString) : Option JSString :=
  match lookupA p.parsedArgs (aliasOr p.aliases argName) with
  | none => none
  | some values =>
    match values.head? with
    | none => none
    | some fv => if valTruthy fv then some (valToString fv) else none

/-- `count` (src/utils/args.ts lines 251-255). -/
def ArgsParser.count (p : ArgsParser) (argName : JSString) : Nat :=
  match lookupA p.parsedArgs (aliasOr p.aliases argName) with
  | some values => values.length
  | none => 0

/-- `getLoose` (src/utils/args.ts lines 261-263). -/
def ArgsParser.getLoose (p : ArgsParser) : List JSString := p.looseArgs

/-- `countLoose` (src/utils/args.ts lines 269-271). -/
def ArgsParser.countLoose (p : ArgsParser) : Nat := p.looseArgs.length

/-- `getRest` (src/utils/args.ts lines 277-279). -/
def ArgsParser.getRest (p : ArgsParser) : JSString := p.restCommand

/-- `hasRest` (src/utils/args.ts lines 285-287): `restCommand !== ""`. -/
def ArgsParser.hasRest (p : ArgsParser) : Bool := !p.restCommand.isEmpty

/-- Follows the spec's words (§3, `rest`): a list of tokens "rejoined with
single spaces". -/
def specJoinSpaces : List JSString → JSString
  | [] => []
  | [t] => t
  | t :: u :: rest => t ++ ' ' :: specJoinSpaces (u :: rest)

/-- The tokens strictly after the first exact `--` token of a sequence,
`none` when the sequence has no `--` token. -/
def afterDelim : List JSString → Option (List JSString)
  | [] => none
  | t :: rest => if t = ['-', '-'] then some rest else afterDelim rest

/-- The configuration with both fields absent (`{}` in the tests). -/
def optsNone : ArgsParserOptions := ⟨none, none⟩

/-- Space-joining as `parseArgs` performs it: the separator is inserted only
when the accumulator is already non-empty (line 120 of src/utils/args.ts). -/
def foldRest (acc : JSString) : List JSString → JSString
  | [] => acc
  | t :: ts => foldRest (acc ++ (if acc.isEmpty then [] else [' ']) ++ t) ts

theorem splitEq_of_not_mem (t : JSString) (h : '=' ∉ t) : splitEq t = [t] := by
  induction t with
  | nil => rfl
  | cons c rest ih =>
    have hc : c ≠ '=' := fun e => h (e ▸ List.mem_cons_self c rest)
    rw [splitEq, if_neg hc, ih (fun hm => h (List.mem_cons_of_mem c hm))]

theorem splitEq_append (a rest : JSString) (h : '=' ∉ a) :
    splitEq (a ++ '=' :: rest) = a :: splitEq rest := by
  induction a with
  | nil => simp [splitEq]
  | cons c as ih =>
    have hc : c ≠ '=' := fun e => h (e ▸ List.mem_cons_self c as)
    rw [List.cons_append, splitEq, if_neg hc, ih (fun hm => h (List.mem_cons_of_mem c hm))]

theorem startsWithL_nil_right (t : JSString) : startsWithL t [] = true := by
  cases t <;> rfl

theorem startsWithL_dash_of_dashdash : ∀ t : JSString,
    startsWithL t ['-', '-'] = true → startsWithL t ['-'] = true
  | [], h => by simp [startsWithL] at h
  | c :: s, h => by
    by_cases hc : c = '-'
    · subst hc
      simp [startsWithL, startsWithL_nil_right]
    · simp [startsWithL, hc] at h

theorem startsWithL_dash_append (n x : JSString) (hne : n ≠ [])
    (h : startsWithL n ['-'] = false) : startsWithL (n ++ x) ['-'] = false := by
  match n with
  | [] => exact absurd rfl hne
  | c :: s =>
    rw [startsWithL, startsWithL_nil_right] at h
    have hc : c ≠ '-' := by
      intro e
      rw [if_pos e] at h
      cases h
    rw [List.cons_append, startsWithL, if_neg hc]

theorem containsS_eq_true_of_mem {l : List JSString} {y : JSString} (h : y ∈ l) :
    containsS l y = true := by
  induction l with
  | nil => cases h
  | cons x xs ih =>
    rw [containsS]
    rcases List.mem_cons.mp h with h1 | h2
    · rw [if_pos h1.symm]
    · split
      · rfl
      · exact ih h2

theorem normalizeOptions_keeps_aliases (o : ArgsParserOptions) :
    (normalizeOptions o).aliases = o.aliases := by
  rcases o with ⟨a, b⟩
  cases a <;> cases b <;> rfl

theorem foldRest_of_ne_nil (ts : List JSString) : ∀ acc : JSString, acc ≠ [] →
    foldRest acc ts = acc ++ (ts.map (fun t => ' ' :: t)).flatten := by
  induction ts with
  | nil => intro acc _; simp [foldRest]
  | cons t ts ih =>
    intro acc h
    have he : acc.isEmpty = false := by
      cases acc with
      | nil => exact absurd rfl h
      | cons a as => rfl
    rw [foldRest, he]
    rw [ih _ (by simp)]
    simp [List.append_assoc]

theorem specJoinSpaces_cons (t : JSString) (ts : List JSString) :
    specJoinSpaces (t :: ts) = t ++ (ts.map (fun u => ' ' :: u)).flatten := by
  induction ts generalizing t with
  | nil => simp [specJoinSpaces]
  | cons u us ih =>
    rw [specJoinSpaces, ih u]
    simp

theorem foldRest_nil_acc (ts : List JSString) :
    foldRest [] ts = specJoinSpaces (ts.dropWhile (fun t => t.isEmpty)) := by
  induction ts with
  | nil => rfl
  | cons t ts ih =>
    by_cases ht : t = []
    · subst ht
      rw [foldRest]
      simpa [List.dropWhile_cons] using ih
    · have he : t.isEmpty = false := by
        cases t with
        | nil => exact absurd rfl ht
        | cons a as => rfl
      rw [foldRest]
      simp only [List.isEmpty_nil, if_true, List.nil_append]
      rw [foldRest_of_ne_nil ts t ht, List.dropWhile_cons, he]
      simp [specJoinSpaces_cons]

theorem parseLoop_cons_collect (opts : ArgsParserOptions) (arg : JSString)
    (rest : List JSString) (st : ParseState) (h : st.collectingRest = true) :
    parseLoop opts (arg :: rest) st = parseLoop opts rest (collectStep st arg) := by
  cases rest with
  | nil => rw [parseLoop.eq_3, if_pos h]
  | cons b l => rw [parseLoop.eq_2, if_pos h]

theorem parseLoop_cons_delim (opts : ArgsParserOptions) (rest : List JSString)
    (st : ParseState) (h : ¬st.collectingRest = true) :
    parseLoop opts (['-', '-'] :: rest) st = parseLoop opts rest (delimStep st) := by
  cases rest with
  | nil => rw [parseLoop.eq_3, if_neg h, if_pos rfl]
  | cons b l => rw [parseLoop.eq_2, if_neg h, if_pos rfl]

theorem parseLoop_cons_bool (opts : ArgsParserOptions) (arg : JSString)
    (rest : List JSString) (st : ParseState) (h0 : ¬st.collectingRest = true)
    (h1 : ¬arg = ['-', '-'])
    (h2 : (startsWithL arg ['-', '-'] || startsWithL arg ['-']) = true)
    (h3 : isBooleanKey opts (flagKey opts arg) = true) :
    parseLoop opts (arg :: rest) st
      = parseLoop opts rest (addStep st (flagKey opts arg) (.vbool true)) := by
  cases rest with
  | nil => rw [parseLoop.eq_3, if_neg h0, if_neg h1, if_pos h2, if_pos h3]
  | cons b l => rw [parseLoop.eq_2, if_neg h0, if_neg h1, if_pos h2, if_pos h3]

theorem parseLoop_cons_inline (opts : ArgsParserOptions) (arg : JSString)
    (rest : List JSString) (st : ParseState) (h0 : ¬st.collectingRest = true)
    (h1 : ¬arg = ['-', '-'])
    (h2 : (startsWithL arg ['-', '-'] || startsWithL arg ['-']) = true)
    (h3 : ¬isBooleanKey opts (flagKey opts arg) = true)
    (h4 : 1 < (flagParts arg).length) :
    parseLoop opts (arg :: rest) st
      = parseLoop opts rest
          (addStep st (flagKey opts arg) (.vstr ((flagParts arg).getD 1 []))) := by
  cases rest with
  | nil => rw [parseLoop.eq_3, if_neg h0, if_neg h1, if_pos h2, if_neg h3, if_pos h4]
  | cons b l => rw [parseLoop.eq_2, if_neg h0, if_neg h1, if_pos h2, if_neg h3, if_pos h4]

theorem parseLoop_cons_dash_next (opts : ArgsParserOptions) (arg next : JSString)
    (rest2 : List JSString) (st : ParseState) (h0 : ¬st.collectingRest = true)
    (h1 : ¬arg = ['-', '-'])
    (h2 : (startsWithL arg ['-', '-'] || startsWithL arg ['-']) = true)
    (h3 : ¬isBooleanKey opts (flagKey opts arg) = true)
    (h4 : ¬1 < (flagParts arg).length) (h5 : startsWithL next ['-'] = true) :
    parseLoop opts (arg :: next :: rest2) st
      = parseLoop opts (next :: rest2) (addStep st (flagKey opts arg) (.vstr [])) := by
  rw [parseLoop.eq_2, if_neg h0, if_neg h1, if_pos h2, if_neg h3, if_neg h4, if_pos h5]

theorem parseLoop_cons_consume (opts : ArgsParserOptions) (arg next : JSString)
    (rest2 : List JSString) (st : ParseState) (h0 : ¬st.collectingRest = true)
    (h1 : ¬arg = ['-', '-'])
    (h2 : (startsWithL arg ['-', '-'] || startsWithL arg ['-']) = true)
    (h3 : ¬isBooleanKey opts (flagKey opts arg) = true)
    (h4 : ¬1 < (flagParts arg).length) (h5 : ¬startsWithL next ['-'] = true) :
    parseLoop opts (arg :: next :: rest2) st
      = parseLoop opts rest2 (addStep st (flagKey opts arg) (.vstr next)) := by
  rw [parseLoop.eq_2, if_neg h0, if_neg h1, if_pos h2, if_neg h3, if_neg h4, if_neg h5]

theorem parseLoop_single_flag (opts : ArgsParserOptions) (arg : JSString)
    (st : ParseState) (h0 : ¬st.collectingRest = true) (h1 : ¬arg = ['-', '-'])
    (h2 : (startsWithL arg ['-', '-'] || startsWithL arg ['-']) = true)
    (h3 : ¬isBooleanKey opts (flagKey opts arg) = true)
    (h4 : ¬1 < (flagParts arg).length) :
    parseLoop opts [arg] st = addStep st (flagKey opts arg) (.vstr []) := by
  rw [parseLoop.eq_3, if_neg h0, if_neg h1, if_pos h2, if_neg h3, if_neg h4]

theorem parseLoop_cons_loose (opts : ArgsParserOptions) (arg : JSString)
    (rest : List JSString) (st : ParseState) (h0 : ¬st.collectingRest = true)
    (h1 : ¬arg = ['-', '-'])
    (h2 : ¬(startsWithL arg ['-', '-'] || startsWithL arg ['-']) = true) :
    parseLoop opts (arg :: rest) st = parseLoop opts rest (looseStep st arg) := by
  cases rest with
  | nil => rw [parseLoop.eq_3, if_neg h0, if_neg h1, if_neg h2]
  | cons b l => rw [parseLoop.eq_2, if_neg h0, if_neg h1, if_neg h2]

theorem parseLoop_collecting (opts : ArgsParserOptions) (tokens : List JSString) :
    ∀ st : ParseState, st.collectingRest = true →
      parseLoop opts tokens st
        = ⟨st.parsedArgs, st.looseArgs, foldRest st.restCommand tokens, true⟩ := by
  induction tokens with
  | nil =>
    intro st h
    rcases st with ⟨a, b, c, d⟩
    cases h
    rfl
  | cons arg rest ih =>
    intro st h
    rw [parseLoop_cons_collect opts arg rest st h, ih (collectStep st arg) h, foldRest]
    rfl

theorem parseLoop_rest_characterization (opts : ArgsParserOptions) :
    ∀ (tokens : List JSString) (st : ParseState), st.collectingRest = false →
      (parseLoop opts tokens st).restCommand
        = match afterDelim tokens with
          | none => st.restCommand
          | some after => foldRest st.restCommand after := by
  intro tokens st
  induction tokens, st using parseLoop.induct opts with
  | case1 st =>
    intro _
    rfl
  | case2 arg rest st h ih =>
    intro hf
    rw [h] at hf
    cases hf
  | case3 rest st h ih =>
    intro hf
    rw [parseLoop_cons_delim opts rest st h,
      parseLoop_collecting opts rest (delimStep st) rfl, afterDelim, if_pos rfl]
    simp [delimStep]
  | case4 arg rest st h1 h2 h3 h4 ih =>
    intro hf
    rw [parseLoop_cons_bool opts arg rest st h1 h2 h3 h4, ih hf, afterDelim, if_neg h2]
    simp [addStep]
  | case5 arg rest st h1 h2 h3 h4 h5 ih =>
    intro hf
    rw [parseLoop_cons_inline opts arg rest st h1 h2 h3 h4 h5, ih hf, afterDelim, if_neg h2]
    simp [addStep]
  | case6 arg st h1 h2 h3 h4 h5 next rest2 h6 ih =>
    intro hf
    rw [parseLoop_cons_dash_next opts arg next rest2 st h1 h2 h3 h4 h5 h6, ih hf]
    conv_rhs => rw [afterDelim, if_neg h2]
    simp [addStep]
  | case7 arg st h1 h2 h3 h4 h5 next rest2 h6 ih =>
    intro hf
    have hnext : ¬next = ['-', '-'] := by
      intro e
      subst e
      exact absurd (by decide : startsWithL ['-', '-'] ['-'] = true) h6
    rw [parseLoop_cons_consume opts arg next rest2 st h1 h2 h3 h4 h5 h6, ih hf,
      afterDelim, if_neg h2, afterDelim, if_neg hnext]
    simp [addStep]
  | case8 arg st h1 h2 h3 h4 h5 =>
    intro hf
    rw [parseLoop_single_flag opts arg st h1 h2 h3 h4 h5, afterDelim, if_neg h2, afterDelim]
    simp [addStep]
  | case9 arg rest st h1 h2 h3 ih =>
    intro hf
    rw [parseLoop_cons_loose opts arg rest st h1 h2 h3, ih hf, afterDelim, if_neg h2]
    simp [looseStep]

theorem foldRest_nil_eq_nil_iff (ts : List JSString) :
    foldRest [] ts = [] ↔ ∀ t ∈ ts, t = [] := by
  induction ts with
  | nil => simp [foldRest]
  | cons t ts ih =>
    by_cases ht : t = []
    · subst ht
      rw [foldRest]
      simpa using ih
    · have he : t.isEmpty = false := by
        cases t with
        | nil => exact absurd rfl ht
        | cons a as => rfl
      rw [foldRest]
      simp only [List.isEmpty_nil, if_true, List.nil_append]
      rw [foldRest_of_ne_nil ts t ht]
      simp [List.append_eq_nil, ht]

example :
    parseArgs [jstr "--arg=asd"] optsNone
      = ⟨[(jstr "arg", [.vstr (jstr "asd")])], [], []⟩ := by decide

example :
    parseArgs [jstr "--port", jstr "8080", jstr "app.config"] optsNone
      = ⟨[(jstr "port", [.vstr (jstr "8080")])], [jstr "app.config"], []⟩ := by decide

example :
    parseArgs [jstr "--port", jstr "8080", jstr "--", jstr "run", jstr "server",
        jstr "--debug"] optsNone
      = ⟨[(jstr "port", [.vstr (jstr "8080")])], [], jstr "run server --debug"⟩ := by
  decide

example :
    parseArgs [jstr "--db-host", jstr "localhost", jstr "-p", jstr "3306"]
        ⟨some [(jstr "db-host", jstr "host"), (jstr "p", jstr "port")], none⟩
      = ⟨[(jstr "host", [.vstr (jstr "localhost")]), (jstr "port", [.vstr (jstr "3306")])],
          [], []⟩ := by decide

theorem startsWithL_dd_cons (n : JSString) : startsWithL ('-' :: '-' :: n) ['-', '-'] = true := by
  simp [startsWithL, startsWithL_nil_right]

theorem startsWithL_d_cons (n : JSString) : startsWithL ('-' :: n) ['-'] = true := by
  simp [startsWithL, startsWithL_nil_right]

theorem startsWithL_dcons_dd (n : JSString) (h : startsWithL n ['-'] = false) :
    startsWithL ('-' :: n) ['-', '-'] = false := by
  simp [startsWithL, h]

theorem parseLoop_no_dash (opts : ArgsParserOptions) (tokens : List JSString) :
    ∀ st : ParseState, st.collectingRest = false →
      (∀ t ∈ tokens, startsWithL t ['-'] = false) →
      parseLoop opts tokens st
        = ⟨st.parsedArgs, st.looseArgs ++ tokens, st.restCommand, false⟩ := by
  induction tokens with
  | nil =>
    intro st h0 _
    rcases st with ⟨a, b, c, d⟩
    cases h0
    simp [parseLoop]
  | cons arg rest ih =>
    intro st h0 hall
    have ha : startsWithL arg ['-'] = false := hall arg (List.mem_cons_self arg rest)
    have h1 : ¬arg = ['-', '-'] := by
      intro e
      subst e
      exact absurd ha (by decide)
    have hdd : startsWithL arg ['-', '-'] = false := by
      cases hdd2 : startsWithL arg ['-', '-'] with
      | false => rfl
      | true => exact absurd (startsWithL_dash_of_dashdash arg hdd2) (by simp [ha])
    rw [parseLoop_cons_loose opts arg rest st (by simp [h0]) h1 (by simp [hdd, ha])]
    rw [ih (looseStep st arg) (by simpa [looseStep] using h0)
      (fun t ht => hall t (List.mem_cons_of_mem arg ht))]
    simp [looseStep]

theorem parseLoop_loose_inv (opts : ArgsParserOptions) :
    ∀ (tokens : List JSString) (st : ParseState),
      (∀ u ∈ st.looseArgs, startsWithL u ['-'] = false) →
      ∀ u ∈ (parseLoop opts tokens st).looseArgs, startsWithL u ['-'] = false := by
  intro tokens st
  induction tokens, st using parseLoop.induct opts with
  | case1 st =>
    intro hinv
    simpa [parseLoop] using hinv
  | case2 arg rest st h ih =>
    intro hinv
    rw [parseLoop_cons_collect opts arg rest st h]
    exact ih (by simpa [collectStep] using hinv)
  | case3 rest st h ih =>
    intro hinv
    rw [parseLoop_cons_delim opts rest st h]
    exact ih (by simpa [delimStep] using hinv)
  | case4 arg rest st h1 h2 h3 h4 ih =>
    intro hinv
    rw [parseLoop_cons_bool opts arg rest st h1 h2 h3 h4]
    exact ih (by simpa [addStep] using hinv)
  | case5 arg rest st h1 h2 h3 h4 h5 ih =>
    intro hinv
    rw [parseLoop_cons_inline opts arg rest st h1 h2 h3 h4 h5]
    exact ih (by simpa [addStep] using hinv)
  | case6 arg st h1 h2 h3 h4 h5 next rest2 h6 ih =>
    intro hinv
    rw [parseLoop_cons_dash_next opts arg next rest2 st h1 h2 h3 h4 h5 h6]
    exact ih (by simpa [addStep] using hinv)
  | case7 arg st h1 h2 h3 h4 h5 next rest2 h6 ih =>
    intro hinv
    rw [parseLoop_cons_consume opts arg next rest2 st h1 h2 h3 h4 h5 h6]
    exact ih (by simpa [addStep] using hinv)
  | case8 arg st h1 h2 h3 h4 h5 =>
    intro hinv
    rw [parseLoop_single_flag opts arg st h1 h2 h3 h4 h5]
    simpa [addStep] using hinv
  | case9 arg rest st h1 h2 h3 ih =>
    intro hinv
    simp only [Bool.or_eq_true, not_or, Bool.not_eq_true] at h3
    rw [parseLoop_cons_loose opts arg rest st h1 h2 (by simp [h3.1, h3.2])]
    refine ih ?_
    intro u hu
    have hu2 : u ∈ st.looseArgs ∨ u = arg := by simpa [looseStep] using hu
    rcases hu2 with h | h
    · exact hinv u h
    · rw [h]
      exact h3.2

/-- C1: the spec claims a flag token that is not boolean-configured, carries no
inline `=value`, and is not followed by a consumable token records the literal
`true`.  The code initializes the value to `""` for non-boolean flags
(src/utils/args.ts line 135), so on the spec's own example the flag `-v` is
recorded as the empty string, not as `true` (the repository's test suite
asserts `v: [true]`, which this parse contradicts). -/
theorem parseArgs_bare_flag_records_empty_string :
    parseArgs [jstr "--port", jstr "8080", jstr "-v", jstr "--configFile", jstr "app.config"]
        optsNone
      = ⟨[(jstr "port", [.vstr (jstr "8080")]), (jstr "v", [.vstr []]),
          (jstr "configFile", [.vstr (jstr "app.config")])], [], []⟩
    ∧ ArgValue.vstr [] ≠ ArgValue.vbool true :=
  ⟨by decide, by decide⟩

/-- C3 counterexample: `parseArgs` overwrites the caller's `options.boolean`
in place with its alias-normalized form (src/utils/args.ts line 113), so the
caller-supplied configuration is not left unchanged. -/
theorem normalizeOptions_rewrites_caller_boolean :
    normalizeOptions ⟨some [(jstr "v", jstr "verbose")], some [jstr "v"]⟩
      ≠ ⟨some [(jstr "v", jstr "verbose")], some [jstr "v"]⟩ := by
  decide

/-- C3 (amended): the parse is deterministic and never alters the caller's
aliases mapping, and the whole configuration is untouched whenever `aliases`
or `boolean` is absent; only a configuration supplying both has its boolean
set rewritten in place to the alias-normalized form. -/
theorem parseArgs_touches_only_boolean_config (options : ArgsParserOptions) :
    (normalizeOptions options).aliases = options.aliases
    ∧ (options.boolean = none → normalizeOptions options = options)
    ∧ (options.aliases = none → normalizeOptions options = options) := by
  rcases options with ⟨a, b⟩
  cases a <;> cases b <;> simp [normalizeOptions]

/-- C3 witness: instantiating the amended claim at a concrete configuration
with no boolean set. -/
theorem parseArgs_touches_only_boolean_config_witness :
    (normalizeOptions ⟨some [(jstr "v", jstr "verbose")], none⟩).aliases
        = some [(jstr "v", jstr "verbose")]
    ∧ normalizeOptions ⟨some [(jstr "v", jstr "verbose")], none⟩
        = ⟨some [(jstr "v", jstr "verbose")], none⟩ := by
  have h := parseArgs_touches_only_boolean_config ⟨some [(jstr "v", jstr "verbose")], none⟩
  exact ⟨h.1, h.2.1 rfl⟩

/-- C4 counterexample: after parsing `["--flag", ""]` the key `flag` is
present in `args` with first value `""`, yet `get` returns an absent result
(the truthiness test at src/utils/args.ts line 242 sends the empty string to
`undefined`), contradicting the claim that a present key never yields
`undefined`. -/
theorem get_none_for_present_empty_value :
    lookupA (ArgsParser.make [jstr "--flag", jstr ""] optsNone).parsedArgs (jstr "flag")
      = some [ArgValue.vstr []]
    ∧ (ArgsParser.make [jstr "--flag", jstr ""] optsNone).get (jstr "flag") = none :=
  ⟨by decide, by decide⟩

/-- C4 (amended): `get` returns an absent result exactly when the
alias-resolved key is absent or its first recorded value is falsy (the empty
string); when the first value is truthy it returns that value's string form. -/
theorem get_first_value_truthiness (p : ArgsParser) (name : JSString) :
    (lookupA p.parsedArgs (aliasOr p.aliases name) = none → p.get name = none)
    ∧ (∀ fv vs, lookupA p.parsedArgs (aliasOr p.aliases name) = some (fv :: vs) →
        p.get name = if valTruthy fv then some (valToString fv) else none) := by
  constructor
  · intro h
    simp [ArgsParser.get, h]
  · intro fv vs h
    simp [ArgsParser.get, h]

/-- C4 witness: instantiating the amended claim on a concrete parse with a
truthy first value. -/
theorem get_first_value_truthiness_witness :
    (ArgsParser.make [jstr "--name", jstr "joe"] optsNone).get (jstr "name")
      = some (jstr "joe") := by
  have h := (get_first_value_truthiness (ArgsParser.make [jstr "--name", jstr "joe"] optsNone)
    (jstr "name")).2 (ArgValue.vstr (jstr "joe")) [] (by decide)
  rw [h]
  decide

/-- C7: for a present alias-resolved key, `getBoolean` returns `true` when the
first stored value is the literal `true`, and on a string first value it
returns `false` exactly when the lowercased value is one of `no`, `n`,
`false`, `0` (src/utils/args.ts lines 213-230). -/
theorem getBoolean_first_value_coercion (p : ArgsParser) (name : JSString)
    (fv : ArgValue) (vs : List ArgValue)
    (h : lookupA p.parsedArgs (aliasOr p.aliases name) = some (fv :: vs)) :
    (fv = ArgValue.vbool true → p.getBoolean name = true)
    ∧ (∀ t, fv = ArgValue.vstr t →
        (p.getBoolean name = false ↔
          lowerStr t ∈ [jstr "no", jstr "n", jstr "false", jstr "0"])) := by
  constructor
  · rintro rfl
    simp only [ArgsParser.getBoolean, h, List.headD_cons]
    rw [if_neg (by decide)]
  · rintro t rfl
    simp only [ArgsParser.getBoolean, h, List.headD_cons, valToString]
    by_cases hc : lowerStr t = jstr "no" ∨ lowerStr t = jstr "n" ∨ lowerStr t = jstr "false"
        ∨ lowerStr t = jstr "0"
    · rw [if_pos hc]
      simp only [List.mem_cons, List.not_mem_nil, or_false]
      exact iff_of_true trivial hc
    · rw [if_neg hc]
      refine iff_of_false (by simp) ?_
      simpa only [List.mem_cons, List.not_mem_nil, or_false] using hc

/-- C7 witness: a concrete parse where the first value is the string `NO`. -/
theorem getBoolean_first_value_coercion_witness :
    (ArgsParser.make [jstr "--accept", jstr "NO"] optsNone).getBoolean (jstr "accept")
      = false := by
  have h := (getBoolean_first_value_coercion
    (ArgsParser.make [jstr "--accept", jstr "NO"] optsNone) (jstr "accept")
    (ArgValue.vstr (jstr "NO")) [] (by decide)).2 (jstr "NO") rfl
  exact h.mpr (by decide)

/-- C8: for every parser instance and every name, the sequence returned by
`getArray` has exactly `count` elements (src/utils/args.ts lines 195-205 and
251-255). -/
theorem getArray_length_eq_count (p : ArgsParser) (name : JSString) :
    (p.getArray name).length = p.count name := by
  cases h : lookupA p.parsedArgs (aliasOr p.aliases name) with
  | none => simp [ArgsParser.getArray, ArgsParser.count, h]
  | some values => simp [ArgsParser.getArray, ArgsParser.count, h]

/-- C9: a token sequence in which no token starts with `-` parses to an empty
`args` mapping, an empty `rest`, and a `loose` sequence equal to the input in
order. -/
theorem parseArgs_no_dash_all_loose (tokens : List JSString)
    (options : ArgsParserOptions)
    (h : ∀ t ∈ tokens, startsWithL t ['-'] = false) :
    parseArgs tokens options = ⟨[], tokens, []⟩ := by
  rw [parseArgs, parseLoop_no_dash (normalizeOptions options) tokens stInit rfl h]
  rfl

/-- C9 witness: a concrete dash-free token sequence, including an empty
token. -/
theorem parseArgs_no_dash_all_loose_witness :
    parseArgs [jstr "alpha", jstr ""] optsNone = ⟨[], [jstr "alpha", jstr ""], []⟩ :=
  parseArgs_no_dash_all_loose [jstr "alpha", jstr ""] optsNone (by decide)

/-- C10: no string in the `loose` component of any parse starts with `-`:
every hyphen-prefixed token before the first `--` is classified as a flag (or
the delimiter), and tokens after the delimiter go to `rest`, never to
`loose`. -/
theorem loose_tokens_never_start_with_dash (tokens : List JSString)
    (options : ArgsParserOptions) (u : JSString)
    (h : u ∈ (parseArgs tokens options).loose) : startsWithL u ['-'] = false := by
  refine parseLoop_loose_inv (normalizeOptions options) tokens stInit ?_ u ?_
  · intro v hv
    simp [stInit] at hv
  · exact h

/-- C10 witness: instantiating the invariant at a concrete parse. -/
theorem loose_tokens_never_start_with_dash_witness :
    startsWithL (jstr "hello") ['-'] = false :=
  loose_tokens_never_start_with_dash [jstr "hello"] optsNone (jstr "hello") (by decide)

theorem flagParts_ddash (n : JSString) : flagParts ('-' :: '-' :: n) = splitEq n := by
  simp [flagParts, startsWithL_dd_cons]

theorem flagParts_dash (n : JSString) (h : startsWithL n ['-'] = false) :
    flagParts ('-' :: n) = splitEq n := by
  simp [flagParts, startsWithL_dcons_dd n h, startsWithL_d_cons]

theorem isBooleanKey_normalized (al : List (JSString × JSString)) (bl : List JSString)
    (c m : JSString) (hm : m ∈ bl) (hmc : aliasOr al m = c) :
    isBooleanKey (normalizeOptions ⟨some al, some bl⟩) c = true := by
  show containsS (bl.map (aliasOr al)) c = true
  exact containsS_eq_true_of_mem (hmc ▸ List.mem_map_of_mem (aliasOr al) hm)

/-- C2 counterexample: on `["--arg=a=b"]` the recorded value is `"a"` — the
text between the first and second `=` — not `"a=b"` as the claim states
(`split("=")` at src/utils/args.ts line 124 splits on every `=` and line 141
takes only `parts[1]`). -/
theorem parseArgs_inline_drops_text_after_second_eq :
    (parseArgs [jstr "--arg=a=b"] optsNone).args = [(jstr "arg", [ArgValue.vstr (jstr "a")])]
    ∧ jstr "a" ≠ jstr "a=b" :=
  ⟨by decide, by decide⟩

/-- C2 (amended): for a non-boolean flag token whose remainder contains two or
more `=` characters, the recorded value is the segment strictly between the
first and the second `=`; everything from the second `=` on is discarded. -/
theorem parseArgs_inline_value_is_first_segment (options : ArgsParserOptions)
    (a b c : JSString) (ha : '=' ∉ a) (hb : '=' ∉ b)
    (hkey : isBooleanKey (normalizeOptions options) (resolveKey options.aliases a) = false) :
    (parseArgs [('-' :: '-' :: (a ++ '=' :: (b ++ '=' :: c)))] options).args
      = [(resolveKey options.aliases a, [ArgValue.vstr b])] := by
  have hsplit : splitEq (a ++ '=' :: (b ++ '=' :: c)) = a :: b :: splitEq c := by
    rw [splitEq_append a _ ha, splitEq_append b c hb]
  have hk : flagKey (normalizeOptions options) ('-' :: '-' :: (a ++ '=' :: (b ++ '=' :: c)))
      = resolveKey options.aliases a := by
    rw [flagKey, flagParts_ddash, hsplit, normalizeOptions_keeps_aliases]
    rfl
  have h0 : ¬stInit.collectingRest = true := by simp [stInit]
  have h1 : ¬('-' :: '-' :: (a ++ '=' :: (b ++ '=' :: c))) = ['-', '-'] := by simp
  have h2 : (startsWithL ('-' :: '-' :: (a ++ '=' :: (b ++ '=' :: c))) ['-', '-']
      || startsWithL ('-' :: '-' :: (a ++ '=' :: (b ++ '=' :: c))) ['-']) = true := by
    simp [startsWithL_dd_cons]
  have h3 : ¬isBooleanKey (normalizeOptions options)
      (flagKey (normalizeOptions options)
        ('-' :: '-' :: (a ++ '=' :: (b ++ '=' :: c)))) = true := by
    rw [hk]
    simp [hkey]
  have h4 : 1 < (flagParts ('-' :: '-' :: (a ++ '=' :: (b ++ '=' :: c)))).length := by
    rw [flagParts_ddash, hsplit]
    simp
  have h5 : (flagParts ('-' :: '-' :: (a ++ '=' :: (b ++ '=' :: c)))).getD 1 [] = b := by
    rw [flagParts_ddash, hsplit]
    rfl
  rw [parseArgs, parseLoop_cons_inline (normalizeOptions options) _ [] stInit h0 h1 h2 h3 h4,
    parseLoop.eq_1, hk, h5]
  rfl

/-- C2 witness: instantiating the amended claim on a concrete token with two
`=` characters. -/
theorem parseArgs_inline_value_is_first_segment_witness :
    (parseArgs [('-' :: '-' :: (jstr "arg" ++ '=' :: (jstr "x" ++ '=' :: jstr "y")))]
        optsNone).args
      = [(jstr "arg", [ArgValue.vstr (jstr "x")])] := by
  have h := parseArgs_inline_value_is_first_segment optsNone (jstr "arg") (jstr "x")
    (jstr "y") (by decide) (by decide) (by decide)
  exact h

/-- C5: the boolean set is alias-normalized once before the scan with the same
alias table used to resolve flag keys, so a flag declared boolean under any
name resolving to canonical key `c` is treated as boolean-only when invoked
under any name `n` resolving to `c`, with either one or two leading hyphens:
the recorded value is the literal `true`, an inline `=value` is ignored (the
parse equals the parse of the same token without the inline part), and the
following tokens are processed from an otherwise unchanged state (the next
token is never consumed as the flag's value). -/
theorem boolean_flag_alias_normalized_scan (al : List (JSString × JSString))
    (bl : List JSString) (n c w : JSString) (rest : List JSString) (m : JSString)
    (hm : m ∈ bl) (hmc : aliasOr al m = c) (hnc : aliasOr al n = c) (hn1 : n ≠ [])
    (hn2 : startsWithL n ['-'] = false) (hn3 : '=' ∉ n) :
    (parseArgs (('-' :: '-' :: n) :: rest) ⟨some al, some bl⟩
        = stateToResult (parseLoop (normalizeOptions ⟨some al, some bl⟩) rest
            ⟨[(c, [ArgValue.vbool true])], [], [], false⟩))
    ∧ (parseArgs (('-' :: '-' :: (n ++ '=' :: w)) :: rest) ⟨some al, some bl⟩
        = stateToResult (parseLoop (normalizeOptions ⟨some al, some bl⟩) rest
            ⟨[(c, [ArgValue.vbool true])], [], [], false⟩))
    ∧ (parseArgs (('-' :: n) :: rest) ⟨some al, some bl⟩
        = stateToResult (parseLoop (normalizeOptions ⟨some al, some bl⟩) rest
            ⟨[(c, [ArgValue.vbool true])], [], [], false⟩))
    ∧ (parseArgs (('-' :: (n ++ '=' :: w)) :: rest) ⟨some al, some bl⟩
        = stateToResult (parseLoop (normalizeOptions ⟨some al, some bl⟩) rest
            ⟨[(c, [ArgValue.vbool true])], [], [], false⟩)) := by
  have h0 : ¬stInit.collectingRest = true := by simp [stInit]
  have hbool : isBooleanKey (normalizeOptions ⟨some al, some bl⟩) c = true :=
    isBooleanKey_normalized al bl c m hm hmc
  have hres : resolveKey (normalizeOptions ⟨some al, some bl⟩).aliases n = c := by
    rw [normalizeOptions_keeps_aliases]
    exact hnc
  refine ⟨?_, ?_, ?_, ?_⟩
  · have hk : flagKey (normalizeOptions ⟨some al, some bl⟩) ('-' :: '-' :: n) = c := by
      rw [flagKey, flagParts_ddash, splitEq_of_not_mem n hn3]
      exact hres
    have h1 : ¬('-' :: '-' :: n) = ['-', '-'] := by simp [hn1]
    have h2 : (startsWithL ('-' :: '-' :: n) ['-', '-']
        || startsWithL ('-' :: '-' :: n) ['-']) = true := by simp [startsWithL_dd_cons]
    rw [parseArgs, parseLoop_cons_bool (normalizeOptions ⟨some al, some bl⟩) _ rest stInit
      h0 h1 h2 (by rw [hk]; exact hbool), hk]
    rfl
  · have hk : flagKey (normalizeOptions ⟨some al, some bl⟩)
        ('-' :: '-' :: (n ++ '=' :: w)) = c := by
      rw [flagKey, flagParts_ddash, splitEq_append n w hn3]
      exact hres
    have h1 : ¬('-' :: '-' :: (n ++ '=' :: w)) = ['-', '-'] := by simp
    have h2 : (startsWithL ('-' :: '-' :: (n ++ '=' :: w)) ['-', '-']
        || startsWithL ('-' :: '-' :: (n ++ '=' :: w)) ['-']) = true := by
      simp [startsWithL_dd_cons]
    rw [parseArgs, parseLoop_cons_bool (normalizeOptions ⟨some al, some bl⟩) _ rest stInit
      h0 h1 h2 (by rw [hk]; exact hbool), hk]
    rfl
  · have hk : flagKey (normalizeOptions ⟨some al, some bl⟩) ('-' :: n) = c := by
      rw [flagKey, flagParts_dash n hn2, splitEq_of_not_mem n hn3]
      exact hres
    have h1 : ¬('-' :: n) = ['-', '-'] := by
      intro e
      have hn : n = ['-'] := by
        injection e with e1 e2
      rw [hn] at hn2
      exact absurd hn2 (by decide)
    have h2 : (startsWithL ('-' :: n) ['-', '-'] || startsWithL ('-' :: n) ['-']) = true := by
      simp [startsWithL_d_cons]
    rw [parseArgs, parseLoop_cons_bool (normalizeOptions ⟨some al, some bl⟩) _ rest stInit
      h0 h1 h2 (by rw [hk]; exact hbool), hk]
    rfl
  · have hsw : startsWithL (n ++ '=' :: w) ['-'] = false :=
      startsWithL_dash_append n ('=' :: w) hn1 hn2
    have hk : flagKey (normalizeOptions ⟨some al, some bl⟩) ('-' :: (n ++ '=' :: w)) = c := by
      rw [flagKey, flagParts_dash _ hsw, splitEq_append n w hn3]
      exact hres
    have h1 : ¬('-' :: (n ++ '=' :: w)) = ['-', '-'] := by
      intro e
      have hn : n ++ '=' :: w = ['-'] := by
        injection e with e1 e2
      cases n with
      | nil => simp at hn
      | cons x xs => simp [List.cons_append] at hn
    have h2 : (startsWithL ('-' :: (n ++ '=' :: w)) ['-', '-']
        || startsWithL ('-' :: (n ++ '=' :: w)) ['-']) = true := by
      simp [startsWithL_d_cons]
    rw [parseArgs, parseLoop_cons_bool (normalizeOptions ⟨some al, some bl⟩) _ rest stInit
      h0 h1 h2 (by rw [hk]; exact hbool), hk]
    rfl

/-- C5 witness: a flag declared boolean under its alias `v` and invoked under
the canonical name `verbose`, with and without an ignored inline value; the
following token `next` is not consumed and lands in `loose`. -/
theorem boolean_flag_alias_normalized_scan_witness :
    (parseArgs (('-' :: '-' :: (jstr "verbose" ++ '=' :: jstr "x")) :: [jstr "next"])
        ⟨some [(jstr "v", jstr "verbose")], some [jstr "v"]⟩
      = parseArgs (('-' :: '-' :: jstr "verbose") :: [jstr "next"])
          ⟨some [(jstr "v", jstr "verbose")], some [jstr "v"]⟩)
    ∧ (parseArgs (('-' :: '-' :: jstr "verbose") :: [jstr "next"])
          ⟨some [(jstr "v", jstr "verbose")], some [jstr "v"]⟩
        = ⟨[(jstr "verbose", [ArgValue.vbool true])], [jstr "next"], []⟩) := by
  have h := boolean_flag_alias_normalized_scan [(jstr "v", jstr "verbose")] [jstr "v"]
    (jstr "verbose") (jstr "verbose") (jstr "x") [jstr "next"] (jstr "v")
    (by decide) (by decide) (by decide) (by decide) (by decide) (by decide)
  refine ⟨h.2.1.trans h.1.symm, ?_⟩
  rw [h.1]
  decide

/-- C6 counterexample: with an empty-string token right after the delimiter,
`rest` is not the space-rejoin of the following tokens (`["--","","a"]` gives
`"a"`, while rejoining with single spaces gives `" a"`), and `["--",""]`
yields an empty `rest` although a token did follow the delimiter — refuting
the claimed "empty iff nothing following" equivalence. -/
theorem rest_drops_leading_empty_tokens :
    (parseArgs [jstr "--", jstr "", jstr "a"] optsNone).rest = jstr "a"
    ∧ specJoinSpaces [jstr "", jstr "a"] = jstr " a"
    ∧ jstr "a" ≠ jstr " a"
    ∧ (parseArgs [jstr "--", jstr ""] optsNone).rest = [] :=
  ⟨by decide, by decide, by decide, by decide⟩

/-- C6 (amended): `rest` equals the tokens after the first `--` delimiter
rejoined with single spaces after discarding the leading run of empty-string
tokens (later `--` tokens are captured literally); `rest` is empty iff no
`--` delimiter occurs or every token after it is the empty string; and
`hasRest()` is true exactly when `rest` is non-empty. -/
theorem rest_join_characterization (tokens : List JSString)
    (options : ArgsParserOptions) :
    ((parseArgs tokens options).rest
        = (match afterDelim tokens with
           | none => ([] : JSString)
           | some after => specJoinSpaces (after.dropWhile (fun t => t.isEmpty))))
    ∧ ((parseArgs tokens options).rest = [] ↔
        (match afterDelim tokens with
         | none => True
         | some after => ∀ t ∈ after, t = []))
    ∧ ((ArgsParser.make tokens options).hasRest = true ↔
        (parseArgs tokens options).rest ≠ []) := by
  have h := parseLoop_rest_characterization (normalizeOptions options) tokens stInit rfl
  simp only [stInit] at h
  have hrest : (parseArgs tokens options).rest
      = (parseLoop (normalizeOptions options) tokens ⟨[], [], [], false⟩).restCommand := rfl
  have hmk : (ArgsParser.make tokens options).hasRest
      = !(parseArgs tokens options).rest.isEmpty := rfl
  cases hAD : afterDelim tokens with
  | none =>
    rw [hAD] at h
    refine ⟨?_, ?_, ?_⟩
    · rw [hrest, h]
    · rw [hrest, h]
      simp
    · rw [hmk, hrest, h]
      simp
  | some after =>
    rw [hAD] at h
    refine ⟨?_, ?_, ?_⟩
    · rw [hrest, h]
      exact foldRest_nil_acc after
    · rw [hrest, h]
      exact foldRest_nil_eq_nil_iff after
    · rw [hmk, hrest, h]
      show (!(foldRest [] after).isEmpty) = true ↔ foldRest [] after ≠ []
      simp [List.isEmpty_iff]
